import Mathlib

set_option maxHeartbeats 1000000

/-!
Verification development for the Cring "acceleratorinator" repository.

The byte-oriented run-length codec, the host transfer sequence, the
firmware-side bounded output buffer and the per-pixel channel inversion are
embedded as executable Lean functions, translated from
`acceleratorinator/src/lib.rs` and `firmware/src/main.rs`.  Bytes are
modelled as `Nat` (the codec only copies and compares payload bytes; every
`as u8` cast of the Rust source appears as an explicit `% 256`), `u16`
wrap-around as `% 65536`, and a Rust panic (failed `assert!`, division by
zero, out-of-bounds slice, `unwrap` of `None`) as `Option.none`.
Loops that consume at least one input byte per iteration are written with a
`Nat` fuel initialised to the input length; stability lemmas below recover
the loop equations.
-/

/-! ## RLE codec (`acceleratorinator/src/lib.rs`, also duplicated in `firmware/src/main.rs`) -/

/-- Low two bits of a header byte (`cring_rle_get_header_block_size`, lib.rs:307). -/
def cring_rle_get_header_block_size (header : Nat) : Nat := header &&& 0x03

/-- Upper six bits of a header byte, plus one (`cring_rle_get_header_len`, lib.rs:301). -/
def cring_rle_get_header_len (header : Nat) : Nat := ((header &&& 0xFC) >>> 2) + 1

/-- Header construction (`cring_rle_calc_header`, lib.rs:291).  The two live
`assert!`s (len nonzero, block size below 4) are modelled as `none`; the
`len <= 64` assertion is commented out in the source and hence absent here.
The `u8` shift wraps, hence the `% 256`. -/
def cring_rle_calc_header (len blockSize : Nat) : Option Nat :=
  if len = 0 then none
  else if 4 ≤ blockSize then none
  else some ((((len - 1) <<< 2) % 256) ||| blockSize)

/-- Savings fraction (`cring_rle_calc_block_savings_frac`, lib.rs:335):
`1000u16 * output_size as u16 / input_size as u16`.  Division by zero is a
panic (`none`); the `u16` product wraps at 65536. -/
def cring_rle_calc_block_savings_frac (outputSize inputSize : Nat) : Option Nat :=
  if inputSize = 0 then none else some (1000 * outputSize % 65536 / inputSize)

/-- Fuel-driven count of leading chunks of `l` (of size `u.length`) equal to `u`,
modelling `input.chunks_exact(block_size).take_while(|c| *c == repeat_value).count()`
from `cring_rle_calc_max_block_repeats` (lib.rs:325).  `chunks_exact` only
yields full chunks, which the `l.take u.length = u` test captures. -/
def countRepeatsF (u : List Nat) : Nat → List Nat → Nat
  | 0, _ => 0
  | fuel + 1, l =>
    if u ≠ [] ∧ l.take u.length = u then countRepeatsF u fuel (l.drop u.length) + 1 else 0

/-- Leading-chunk count with fuel instantiated to the list length. -/
def countRepeats (u l : List Nat) : Nat := countRepeatsF u l.length l

/-- Maximal repeat count of the leading `blockSize`-byte unit
(`cring_rle_calc_max_block_repeats`, lib.rs:319).  `input.get(0..block_size)`
is `None` when the input is shorter than `blockSize`; `chunks_exact(0)` is a
panic in Rust, also modelled as `none` (the encoder only passes 1..=3). -/
def cring_rle_calc_max_block_repeats (input : List Nat) (blockSize : Nat) : Option Nat :=
  if blockSize = 0 ∨ input.length < blockSize then none
  else some (countRepeats (input.take blockSize) input)

/-- The fold performed by `possible_block_savings.iter().enumerate().min_by_key(|(_, val)| **val)`
(lib.rs:229): scan left to right, replacing the accumulator only on a strictly
smaller key, so the first minimal index wins ties. -/
def minByFold (s0 s1 s2 s3 : Nat) : Nat × Nat :=
  let a1 := if s1 < s0 then (1, s1) else (0, s0)
  let a2 := if s2 < a1.2 then (2, s2) else a1
  if s3 < a2.2 then (3, s3) else a2

/-- Entry 0 of `possible_block_savings` (lib.rs:215): literal block over
`max_len = input.len().min(32)` bytes, with the `as u8` casts of both
arguments. -/
def rleSavings0 (input : List Nat) : Option Nat :=
  cring_rle_calc_block_savings_frac ((min input.length 32 + 1) % 256) (min input.length 32 % 256)

/-- Entry `b` (1..=3) of `possible_block_savings` after the loop of lib.rs:217:
it stays at `u16::MAX` when `cring_rle_calc_max_block_repeats` yields `None`
(`continue`), and is otherwise the savings fraction of the `u8`-cast sizes. -/
def rleSavings (input : List Nat) (b : Nat) : Option Nat :=
  match cring_rle_calc_max_block_repeats input b with
  | none => some 65535
  | some r => cring_rle_calc_block_savings_frac ((b + 1) % 256) (b * r % 256)

/-- The `(best_block_size, value)` pair selected by `min_by_key` over the four
candidate savings (lib.rs:229); `none` when computing any entry panicked. -/
def rleChosen (input : List Nat) : Option (Nat × Nat) :=
  match rleSavings0 input, rleSavings input 1, rleSavings input 2, rleSavings input 3 with
  | some s0, some s1, some s2, some s3 => some (minByFold s0 s1 s2 s3)
  | _, _, _, _ => none

/-- Fuel-driven encoder loop (`cring_rle_encode`, lib.rs:208): pick the best
candidate, emit header plus payload, advance by the bytes consumed. -/
def cring_rle_encodeF : Nat → List Nat → Option (List Nat)
  | 0, input => if input = [] then some [] else none
  | fuel + 1, input =>
    if input = [] then some []
    else
      match rleChosen input with
      | none => none
      | some (best, _) =>
        if best = 0 then
          match cring_rle_calc_header (min input.length 32 % 256) 0 with
          | none => none
          | some h =>
            (cring_rle_encodeF fuel (input.drop (min input.length 32))).map
              (fun out => h :: (input.take (min input.length 32) ++ out))
        else
          match cring_rle_calc_max_block_repeats input best with
          | none => none
          | some r =>
            match cring_rle_calc_header (r % 256) (best % 256) with
            | none => none
            | some h =>
              (cring_rle_encodeF fuel (input.drop (r * best))).map
                (fun out => h :: (input.take best ++ out))

/-- `cring_rle_encode` (lib.rs:208) with fuel instantiated to the input length
(every loop iteration consumes at least one byte). -/
def cring_rle_encode (input : List Nat) : Option (List Nat) :=
  cring_rle_encodeF input.length input

/-- Fuel-driven decoder loop (`cring_rle_decode`, lib.rs:261): the slice
expressions `&input[1..][..n]` panic (`none`) when fewer than `n` bytes
remain after the header. -/
def cring_rle_decodeF : Nat → List Nat → Option (List Nat)
  | 0, input => if input = [] then some [] else none
  | fuel + 1, input =>
    match input with
    | [] => some []
    | header :: rest =>
      if cring_rle_get_header_block_size header = 0 then
        if cring_rle_get_header_len header ≤ rest.length then
          (cring_rle_decodeF fuel (rest.drop (cring_rle_get_header_len header))).map
            (fun out => rest.take (cring_rle_get_header_len header) ++ out)
        else none
      else
        if cring_rle_get_header_block_size header ≤ rest.length then
          (cring_rle_decodeF fuel (rest.drop (cring_rle_get_header_block_size header))).map
            (fun out =>
              (List.replicate (cring_rle_get_header_len header)
                (rest.take (cring_rle_get_header_block_size header))).flatten ++ out)
        else none

/-- `cring_rle_decode` (lib.rs:261) with fuel instantiated to the input length. -/
def cring_rle_decode (input : List Nat) : Option (List Nat) :=
  cring_rle_decodeF input.length input

/-! ## Stability of the fuel recursion and loop equations -/

theorem countRepeatsF_nil (u : List Nat) : ∀ fuel, countRepeatsF u fuel [] = 0 := by
  intro fuel
  cases fuel with
  | zero => rfl
  | succ f =>
    simp only [countRepeatsF, List.take_nil]
    rw [if_neg]
    rintro ⟨h1, h2⟩
    exact h1 h2.symm

theorem countRepeatsF_stable (u : List Nat) :
    ∀ f₁ f₂ l, l.length ≤ f₁ → l.length ≤ f₂ → countRepeatsF u f₁ l = countRepeatsF u f₂ l := by
  intro f₁
  induction f₁ with
  | zero =>
    intro f₂ l h1 _
    have : l = [] := List.eq_nil_of_length_eq_zero (Nat.le_zero.mp h1)
    subst this
    rw [countRepeatsF_nil, countRepeatsF_nil]
  | succ f ih =>
    intro f₂ l h1 h2
    cases l with
    | nil => rw [countRepeatsF_nil, countRepeatsF_nil]
    | cons a l' =>
      cases f₂ with
      | zero => simp at h2
      | succ g =>
        simp only [countRepeatsF]
        by_cases hc : u ≠ [] ∧ (a :: l').take u.length = u
        · rw [if_pos hc, if_pos hc]
          have hlen : 1 ≤ u.length := by
            cases u with
            | nil => exact absurd rfl hc.1
            | cons _ _ => simp
          have hdrop : ((a :: l').drop u.length).length ≤ f := by
            simp only [List.length_drop, List.length_cons]
            simp only [List.length_cons] at h1
            omega
          have hdrop2 : ((a :: l').drop u.length).length ≤ g := by
            simp only [List.length_drop, List.length_cons]
            simp only [List.length_cons] at h2
            omega
          rw [ih g _ hdrop hdrop2]
        · rw [if_neg hc, if_neg hc]

/-- Loop equation for `countRepeats`. -/
theorem countRepeats_eq (u l : List Nat) :
    countRepeats u l =
      if u ≠ [] ∧ l.take u.length = u then countRepeats u (l.drop u.length) + 1 else 0 := by
  cases l with
  | nil =>
    rw [countRepeats, countRepeatsF_nil]
    simp only [List.take_nil, List.drop_nil]
    by_cases hc : u ≠ [] ∧ ([] : List Nat) = u
    · exact absurd hc.2.symm hc.1
    · rw [if_neg hc]
  | cons a l' =>
    show countRepeatsF u (l'.length + 1) (a :: l') = _
    simp only [countRepeatsF]
    by_cases hc : u ≠ [] ∧ (a :: l').take u.length = u
    · rw [if_pos hc, if_pos hc]
      have hlen : 1 ≤ u.length := by
        cases u with
        | nil => exact absurd rfl hc.1
        | cons _ _ => simp
      congr 1
      apply countRepeatsF_stable
      · simp only [List.length_drop, List.length_cons]; omega
      · exact Nat.le_refl _
    · rw [if_neg hc, if_neg hc]

/-! ## Basic facts about `countRepeats` -/

/-- The unit always matches itself once, so a full leading chunk gives a
positive repeat count. -/
theorem countRepeats_pos (b : Nat) (l : List Nat) (hb : b ≠ 0) (hlen : b ≤ l.length) :
    1 ≤ countRepeats (l.take b) l := by
  rw [countRepeats_eq]
  have hlt : (l.take b).length = b := by
    rw [List.length_take]; omega
  rw [if_pos]
  · omega
  · refine ⟨?_, by rw [hlt]⟩
    intro h
    rw [h] at hlt
    simp only [List.length_nil] at hlt
    omega

/-- The counted chunks really are a prefix of repeated copies of the unit:
flattening them and appending the remainder reproduces the list. -/
theorem countRepeats_expand :
    ∀ n (u l : List Nat), l.length ≤ n → u ≠ [] →
      (List.replicate (countRepeats u l) u).flatten ++
        l.drop (countRepeats u l * u.length) = l := by
  intro n
  induction n with
  | zero =>
    intro u l hl _
    have : l = [] := List.eq_nil_of_length_eq_zero (Nat.le_zero.mp hl)
    subst this
    rw [countRepeats_eq]
    rw [if_neg]
    · simp
    · rintro ⟨h1, h2⟩
      simp only [List.take_nil] at h2
      exact h1 h2.symm
  | succ n ih =>
    intro u l hl hu
    rw [countRepeats_eq]
    by_cases hc : u ≠ [] ∧ l.take u.length = u
    · rw [if_pos hc]
      have hul : u.length ≤ l.length := by
        have := congrArg List.length hc.2
        rw [List.length_take] at this
        omega
      have hupos : 1 ≤ u.length := by
        cases u with
        | nil => exact absurd rfl hc.1
        | cons _ _ => simp
      have hdl : (l.drop u.length).length ≤ n := by
        rw [List.length_drop]; omega
      have hrec := ih u (l.drop u.length) hdl hu
      rw [List.replicate_succ, List.flatten_cons, List.append_assoc]
      have hdd : l.drop ((countRepeats u (l.drop u.length) + 1) * u.length) =
          (l.drop u.length).drop (countRepeats u (l.drop u.length) * u.length) := by
        rw [List.drop_drop]
        congr 1
        ring
      rw [hdd, hrec]
      conv_rhs => rw [← List.take_append_drop u.length l]
      rw [hc.2]
    · rw [if_neg hc]
      simp

/-- Inversion of a successful `cring_rle_calc_max_block_repeats`. -/
theorem calc_max_block_repeats_some (input : List Nat) (b r : Nat)
    (h : cring_rle_calc_max_block_repeats input b = some r) :
    b ≠ 0 ∧ b ≤ input.length ∧ r = countRepeats (input.take b) input := by
  unfold cring_rle_calc_max_block_repeats at h
  by_cases hc : b = 0 ∨ input.length < b
  · rw [if_pos hc] at h
    exact absurd h (by simp)
  · rw [if_neg hc] at h
    push_neg at hc
    exact ⟨hc.1, hc.2, (Option.some.inj h).symm⟩

/-- A successful repeat count is at least one. -/
theorem calc_max_block_repeats_pos (input : List Nat) (b r : Nat)
    (h : cring_rle_calc_max_block_repeats input b = some r) : 1 ≤ r := by
  obtain ⟨hb, hlen, hr⟩ := calc_max_block_repeats_some input b r h
  rw [hr]
  exact countRepeats_pos b input hb hlen

/-! ## Stability and step equations of the encoder and decoder loops -/

theorem cring_rle_encodeF_stable :
    ∀ f₁ f₂ input, input.length ≤ f₁ → input.length ≤ f₂ →
      cring_rle_encodeF f₁ input = cring_rle_encodeF f₂ input := by
  intro f₁
  induction f₁ with
  | zero =>
    intro f₂ input h1 _
    have : input = [] := List.eq_nil_of_length_eq_zero (Nat.le_zero.mp h1)
    subst this
    cases f₂ <;> simp [cring_rle_encodeF]
  | succ f ih =>
    intro f₂ input h1 h2
    cases input with
    | nil => cases f₂ <;> simp [cring_rle_encodeF]
    | cons a l =>
      cases f₂ with
      | zero => simp at h2
      | succ g =>
        simp only [cring_rle_encodeF, if_neg (List.cons_ne_nil a l)]
        split
        · rfl
        · rename_i p best v heqch
          split
          · rename_i hb0
            split
            · rfl
            · rename_i h hh
              rw [ih g]
              · simp only [List.length_drop, List.length_cons] at h1 ⊢
                omega
              · simp only [List.length_drop, List.length_cons] at h2 ⊢
                omega
          · rename_i hb0
            split
            · rfl
            · rename_i r heqmax
              split
              · rfl
              · rename_i h hh
                have hr1 : 1 ≤ r := calc_max_block_repeats_pos _ _ _ heqmax
                have hrb : 1 ≤ r * best := by
                  have hb1 : 1 ≤ best := Nat.one_le_iff_ne_zero.mpr hb0
                  calc 1 = 1 * 1 := rfl
                    _ ≤ r * best := Nat.mul_le_mul hr1 hb1
                rw [ih g]
                · simp only [List.length_drop, List.length_cons] at h1 ⊢
                  omega
                · simp only [List.length_drop, List.length_cons] at h2 ⊢
                  omega

theorem cring_rle_decodeF_stable :
    ∀ f₁ f₂ input, input.length ≤ f₁ → input.length ≤ f₂ →
      cring_rle_decodeF f₁ input = cring_rle_decodeF f₂ input := by
  intro f₁
  induction f₁ with
  | zero =>
    intro f₂ input h1 _
    have : input = [] := List.eq_nil_of_length_eq_zero (Nat.le_zero.mp h1)
    subst this
    cases f₂ <;> simp [cring_rle_decodeF]
  | succ f ih =>
    intro f₂ input h1 h2
    cases input with
    | nil => cases f₂ <;> simp [cring_rle_decodeF]
    | cons a rest =>
      cases f₂ with
      | zero => simp at h2
      | succ g =>
        simp only [cring_rle_decodeF]
        by_cases hbs : cring_rle_get_header_block_size a = 0
        · rw [if_pos hbs, if_pos hbs]
          by_cases hlen : cring_rle_get_header_len a ≤ rest.length
          · rw [if_pos hlen, if_pos hlen]
            have hd1 : ((rest.drop (cring_rle_get_header_len a))).length ≤ f := by
              rw [List.length_drop]
              simp only [List.length_cons] at h1
              omega
            have hd2 : ((rest.drop (cring_rle_get_header_len a))).length ≤ g := by
              rw [List.length_drop]
              simp only [List.length_cons] at h2
              omega
            rw [ih g _ hd1 hd2]
          · rw [if_neg hlen, if_neg hlen]
        · rw [if_neg hbs, if_neg hbs]
          by_cases hlen : cring_rle_get_header_block_size a ≤ rest.length
          · rw [if_pos hlen, if_pos hlen]
            have hd1 : ((rest.drop (cring_rle_get_header_block_size a))).length ≤ f := by
              rw [List.length_drop]
              simp only [List.length_cons] at h1
              omega
            have hd2 : ((rest.drop (cring_rle_get_header_block_size a))).length ≤ g := by
              rw [List.length_drop]
              simp only [List.length_cons] at h2
              omega
            rw [ih g _ hd1 hd2]
          · rw [if_neg hlen, if_neg hlen]

theorem cring_rle_encode_nil : cring_rle_encode [] = some [] := rfl

theorem cring_rle_decode_nil : cring_rle_decode [] = some [] := rfl

/-- Step equation of the decoder on a nonempty stream. -/
theorem cring_rle_decode_cons (header : Nat) (rest : List Nat) :
    cring_rle_decode (header :: rest) =
      if cring_rle_get_header_block_size header = 0 then
        if cring_rle_get_header_len header ≤ rest.length then
          (cring_rle_decode (rest.drop (cring_rle_get_header_len header))).map
            (fun out => rest.take (cring_rle_get_header_len header) ++ out)
        else none
      else
        if cring_rle_get_header_block_size header ≤ rest.length then
          (cring_rle_decode (rest.drop (cring_rle_get_header_block_size header))).map
            (fun out =>
              (List.replicate (cring_rle_get_header_len header)
                (rest.take (cring_rle_get_header_block_size header))).flatten ++ out)
        else none := by
  show cring_rle_decodeF (rest.length + 1) (header :: rest) = _
  simp only [cring_rle_decodeF]
  by_cases hbs : cring_rle_get_header_block_size header = 0
  · rw [if_pos hbs, if_pos hbs]
    by_cases hlen : cring_rle_get_header_len header ≤ rest.length
    · rw [if_pos hlen, if_pos hlen]
      rw [cring_rle_decodeF_stable rest.length
        (rest.drop (cring_rle_get_header_len header)).length _
        (by rw [List.length_drop]; omega) (Nat.le_refl _)]
      rfl
    · rw [if_neg hlen, if_neg hlen]
  · rw [if_neg hbs, if_neg hbs]
    by_cases hlen : cring_rle_get_header_block_size header ≤ rest.length
    · rw [if_pos hlen, if_pos hlen]
      rw [cring_rle_decodeF_stable rest.length
        (rest.drop (cring_rle_get_header_block_size header)).length _
        (by rw [List.length_drop]; omega) (Nat.le_refl _)]
      rfl
    · rw [if_neg hlen, if_neg hlen]

/-- Evaluation of `cring_rle_calc_header` when both assertions hold. -/
theorem cring_rle_calc_header_eval (len blockSize : Nat) (hl : len ≠ 0) (hb : blockSize < 4) :
    cring_rle_calc_header len blockSize = some ((((len - 1) <<< 2) % 256) ||| blockSize) := by
  unfold cring_rle_calc_header
  rw [if_neg hl, if_neg (by omega)]

/-- Step equation of the encoder when the literal candidate is selected. -/
theorem cring_rle_encode_literal_step (input : List Nat) (v : Nat) (hne : input ≠ [])
    (hch : rleChosen input = some (0, v)) :
    cring_rle_encode input =
      (cring_rle_encode (input.drop (min input.length 32))).map
        (fun out =>
          ((((min input.length 32 - 1) <<< 2) % 256) ||| 0) ::
            (input.take (min input.length 32) ++ out)) := by
  cases input with
  | nil => exact absurd rfl hne
  | cons a l =>
    show cring_rle_encodeF (l.length + 1) (a :: l) = _
    have hmlt : min (a :: l).length 32 % 256 = min (a :: l).length 32 := by
      apply Nat.mod_eq_of_lt
      simp only [List.length_cons]
      omega
    have hm1 : min (a :: l).length 32 ≠ 0 := by
      simp only [List.length_cons]
      omega
    simp only [cring_rle_encodeF, if_neg (List.cons_ne_nil a l), hch, hmlt,
      cring_rle_calc_header_eval _ 0 hm1 (by omega), if_pos rfl, eq_self_iff_true, if_true]
    congr 1
    apply cring_rle_encodeF_stable
    · simp only [List.length_drop, List.length_cons]
      omega
    · exact Nat.le_refl _

/-- Step equation of the encoder when a repeat candidate is selected. -/
theorem cring_rle_encode_repeat_step (input : List Nat) (best v r : Nat) (hne : input ≠ [])
    (hch : rleChosen input = some (best, v)) (hb0 : best ≠ 0) (hb4 : best < 4)
    (hmax : cring_rle_calc_max_block_repeats input best = some r) (hr : r % 256 ≠ 0) :
    cring_rle_encode input =
      (cring_rle_encode (input.drop (r * best))).map
        (fun out => ((((r % 256 - 1) <<< 2) % 256) ||| best) :: (input.take best ++ out)) := by
  cases input with
  | nil => exact absurd rfl hne
  | cons a l =>
    show cring_rle_encodeF (l.length + 1) (a :: l) = _
    have hblt : best % 256 = best := Nat.mod_eq_of_lt (by omega)
    simp only [cring_rle_encodeF, if_neg (List.cons_ne_nil a l), hch, if_neg hb0, hmax, hblt,
      cring_rle_calc_header_eval _ best hr hb4]
    congr 1
    have hr1 : 1 ≤ r := calc_max_block_repeats_pos _ _ _ hmax
    have hrb : 1 ≤ r * best := by
      calc 1 = 1 * 1 := rfl
        _ ≤ r * best := Nat.mul_le_mul hr1 (by omega)
    apply cring_rle_encodeF_stable
    · simp only [List.length_drop, List.length_cons]
      omega
    · exact Nat.le_refl _

/-! ## Header bit arithmetic and the selection fold -/

set_option maxRecDepth 100000 in
/-- Parsing a constructed header: the low two bits recover the block size and
the upper six bits recover the length argument modulo 64 (the header has only
six length bits, which is where long repeat counts get corrupted). -/
theorem header_bits :
    ∀ k, k < 256 → ∀ bs, bs < 4 →
      cring_rle_get_header_block_size (((k <<< 2) % 256) ||| bs) = bs ∧
      cring_rle_get_header_len (((k <<< 2) % 256) ||| bs) = k % 64 + 1 := by decide

/-- Characterisation of the `min_by_key` fold: the result is one of the four
entries, it is a lower bound of all of them, and every entry strictly before
the selected index is strictly larger (first-minimum tie-breaking). -/
theorem minByFold_spec (s0 s1 s2 s3 : Nat) :
    ((minByFold s0 s1 s2 s3).1 = 0 ∧ (minByFold s0 s1 s2 s3).2 = s0 ∨
     (minByFold s0 s1 s2 s3).1 = 1 ∧ (minByFold s0 s1 s2 s3).2 = s1 ∨
     (minByFold s0 s1 s2 s3).1 = 2 ∧ (minByFold s0 s1 s2 s3).2 = s2 ∨
     (minByFold s0 s1 s2 s3).1 = 3 ∧ (minByFold s0 s1 s2 s3).2 = s3) ∧
    (minByFold s0 s1 s2 s3).2 ≤ s0 ∧ (minByFold s0 s1 s2 s3).2 ≤ s1 ∧
    (minByFold s0 s1 s2 s3).2 ≤ s2 ∧ (minByFold s0 s1 s2 s3).2 ≤ s3 ∧
    ((minByFold s0 s1 s2 s3).1 = 1 → s1 < s0) ∧
    ((minByFold s0 s1 s2 s3).1 = 2 → s2 < s0 ∧ s2 < s1) ∧
    ((minByFold s0 s1 s2 s3).1 = 3 → s3 < s0 ∧ s3 < s1 ∧ s3 < s2) ∧
    (minByFold s0 s1 s2 s3).1 < 4 := by
  dsimp only [minByFold]
  split_ifs <;> simp_all <;> omega

/-- The literal candidate's savings entry is always defined on nonempty input
and never exceeds 2000 (the worst case being a one-byte literal). -/
theorem rleSavings0_some (input : List Nat) (hne : input ≠ []) :
    ∃ s0, rleSavings0 input = some s0 ∧ s0 ≤ 2000 := by
  have hm1 : 1 ≤ min input.length 32 := by
    cases input with
    | nil => exact absurd rfl hne
    | cons a l => simp only [List.length_cons]; omega
  have hm32 : min input.length 32 ≤ 32 := Nat.min_le_right _ _
  unfold rleSavings0 cring_rle_calc_block_savings_frac
  rw [Nat.mod_eq_of_lt (show min input.length 32 < 256 by omega),
    Nat.mod_eq_of_lt (show min input.length 32 + 1 < 256 by omega), if_neg (by omega)]
  refine ⟨_, rfl, ?_⟩
  rw [Nat.mod_eq_of_lt (show 1000 * (min input.length 32 + 1) < 65536 by omega)]
  calc 1000 * (min input.length 32 + 1) / min input.length 32
      ≤ 2000 * min input.length 32 / min input.length 32 :=
        Nat.div_le_div_right (by omega)
    _ = 2000 := by
        rw [Nat.mul_comm]
        exact Nat.mul_div_cancel_left 2000 (by omega)

/-- A repeat candidate entry is defined as long as its savings division cannot
divide by zero. -/
theorem rleSavings_some (input : List Nat) (b : Nat)
    (hdiv : ∀ r, cring_rle_calc_max_block_repeats input b = some r → b * r % 256 ≠ 0) :
    ∃ s, rleSavings input b = some s := by
  cases hmax : cring_rle_calc_max_block_repeats input b with
  | none => exact ⟨65535, by simp only [rleSavings, hmax]⟩
  | some r =>
    refine ⟨1000 * ((b + 1) % 256) % 65536 / (b * r % 256), ?_⟩
    simp only [rleSavings, hmax, cring_rle_calc_block_savings_frac, if_neg (hdiv r hmax)]

/-- A repeat entry strictly below `u16::MAX` means its repeat count was
computed. -/
theorem rleSavings_lt_max (input : List Nat) (b s : Nat)
    (hs : rleSavings input b = some s) (hlt : s < 65535) :
    ∃ r, cring_rle_calc_max_block_repeats input b = some r := by
  unfold rleSavings at hs
  cases hmax : cring_rle_calc_max_block_repeats input b with
  | none =>
    rw [hmax] at hs
    simp only [Option.some.injEq] at hs
    omega
  | some r => exact ⟨r, rfl⟩

/-- On nonempty input whose repeat candidates cannot divide by zero, the
`min_by_key` selection succeeds and equals the fold of the four entries. -/
theorem rleChosen_some (input : List Nat) (hne : input ≠ [])
    (hdiv : ∀ b, b < 4 → ∀ r,
      cring_rle_calc_max_block_repeats input b = some r → b * r % 256 ≠ 0) :
    ∃ s0 s1 s2 s3, rleSavings0 input = some s0 ∧ rleSavings input 1 = some s1 ∧
      rleSavings input 2 = some s2 ∧ rleSavings input 3 = some s3 ∧
      rleChosen input = some (minByFold s0 s1 s2 s3) ∧ s0 ≤ 2000 := by
  obtain ⟨s0, hs0, hb0⟩ := rleSavings0_some input hne
  obtain ⟨s1, hs1⟩ := rleSavings_some input 1 (hdiv 1 (by omega))
  obtain ⟨s2, hs2⟩ := rleSavings_some input 2 (hdiv 2 (by omega))
  obtain ⟨s3, hs3⟩ := rleSavings_some input 3 (hdiv 3 (by omega))
  refine ⟨s0, s1, s2, s3, hs0, hs1, hs2, hs3, ?_, hb0⟩
  unfold rleChosen
  rw [hs0, hs1, hs2, hs3]

/-- Inversion of a successful selection. -/
theorem rleChosen_inv (input : List Nat) (best v : Nat)
    (h : rleChosen input = some (best, v)) :
    ∃ s0 s1 s2 s3, rleSavings0 input = some s0 ∧ rleSavings input 1 = some s1 ∧
      rleSavings input 2 = some s2 ∧ rleSavings input 3 = some s3 ∧
      (best, v) = minByFold s0 s1 s2 s3 := by
  unfold rleChosen at h
  split at h
  · rename_i s0 s1 s2 s3 hs0 hs1 hs2 hs3
    exact ⟨s0, s1, s2, s3, hs0, hs1, hs2, hs3, (Option.some.inj h).symm⟩
  · exact absurd h (by simp)

/-- The selected index is always one of the four candidates. -/
theorem rleChosen_best_lt4 (input : List Nat) (best v : Nat)
    (h : rleChosen input = some (best, v)) : best < 4 := by
  obtain ⟨s0, s1, s2, s3, _, _, _, _, heq⟩ := rleChosen_inv input best v h
  have spec := (minByFold_spec s0 s1 s2 s3).2.2.2.2.2.2.2.2
  rw [← heq] at spec
  exact spec

/-- When a repeat candidate wins the selection, its repeat count computation
necessarily succeeded (otherwise its entry would have stayed at `u16::MAX`,
losing against the always-defined literal entry). -/
theorem rleChosen_repeat_defined (input : List Nat) (best v : Nat) (hne : input ≠ [])
    (h : rleChosen input = some (best, v)) (hb : best ≠ 0) :
    ∃ r, cring_rle_calc_max_block_repeats input best = some r := by
  obtain ⟨s0, s1, s2, s3, hs0, hs1, hs2, hs3, heq⟩ := rleChosen_inv input best v h
  obtain ⟨s0', hs0', hb0⟩ := rleSavings0_some input hne
  rw [hs0] at hs0'
  have hss := Option.some.inj hs0'
  subst hss
  have spec := minByFold_spec s0 s1 s2 s3
  rw [← heq] at spec
  have hb4 : best < 4 := spec.2.2.2.2.2.2.2.2
  interval_cases best
  · exact absurd rfl hb
  · have hlt := spec.2.2.2.2.2.1 rfl
    exact rleSavings_lt_max input 1 s1 hs1 (by omega)
  · have hlt := (spec.2.2.2.2.2.2.1 rfl).1
    exact rleSavings_lt_max input 2 s2 hs2 (by omega)
  · have hlt := (spec.2.2.2.2.2.2.2.1 rfl).1
    exact rleSavings_lt_max input 3 s3 hs3 (by omega)

/-! ## Totality of the encoder in the absence of `u8` run-length wrap-around -/

/-- Auxiliary totality induction: the encoder succeeds on any input none of
whose suffixes has a repeat count whose `u8`-cast consumed size is zero. -/
theorem cring_rle_encode_total_aux :
    ∀ n (x : List Nat), x.length ≤ n →
      (∀ t, t <:+ x → ∀ b, b < 4 → ∀ r,
        cring_rle_calc_max_block_repeats t b = some r → b * r % 256 ≠ 0) →
      ∃ out, cring_rle_encode x = some out := by
  intro n
  induction n with
  | zero =>
    intro x hl _
    have : x = [] := List.eq_nil_of_length_eq_zero (Nat.le_zero.mp hl)
    subst this
    exact ⟨[], rfl⟩
  | succ n ih =>
    intro x hl hdiv
    by_cases hne : x = []
    · subst hne
      exact ⟨[], rfl⟩
    · obtain ⟨s0, s1, s2, s3, hs0, hs1, hs2, hs3, hch, hb2000⟩ :=
        rleChosen_some x hne (hdiv x (List.suffix_refl x))
      cases hp : minByFold s0 s1 s2 s3 with
      | mk best v =>
        rw [hp] at hch
        have hxlen : 1 ≤ x.length := by
          cases x with
          | nil => exact absurd rfl hne
          | cons _ _ => simp
        by_cases hbz : best = 0
        · subst hbz
          rw [cring_rle_encode_literal_step x _ hne hch]
          obtain ⟨out', hout'⟩ := ih (x.drop (min x.length 32))
            (by rw [List.length_drop]; omega)
            (fun t ht => hdiv t (ht.trans (List.drop_suffix _ x)))
          exact ⟨_, by rw [hout']; rfl⟩
        · have hb4 : best < 4 := rleChosen_best_lt4 x _ _ hch
          obtain ⟨r, hr⟩ := rleChosen_repeat_defined x _ _ hne hch hbz
          have hr1 : 1 ≤ r := calc_max_block_repeats_pos _ _ _ hr
          have hrne : best * r % 256 ≠ 0 :=
            hdiv x (List.suffix_refl x) _ hb4 r hr
          have hr256 : r % 256 ≠ 0 := by
            intro h0
            apply hrne
            interval_cases best <;> omega
          rw [cring_rle_encode_repeat_step x _ _ r hne hch hbz hb4 hr hr256]
          obtain ⟨out', hout'⟩ := ih (x.drop (r * best))
            (by
              rw [List.length_drop]
              have h1b : 1 ≤ r * best := by
                calc 1 = 1 * 1 := rfl
                  _ ≤ r * best := Nat.mul_le_mul hr1 (by omega)
              omega)
            (fun t ht => hdiv t (ht.trans (List.drop_suffix _ x)))
          exact ⟨_, by rw [hout']; rfl⟩

/-- Inversion of a successful encode on nonempty input: the output consists of
the selected candidate's block followed by the encoding of the remaining
input.  No bound on the repeat count is assumed; the emitted header is the
`u8`-wrapped one. -/
theorem cring_rle_encode_some_inv (input out : List Nat) (hne : input ≠ [])
    (henc : cring_rle_encode input = some out) :
    (∃ v out', rleChosen input = some (0, v) ∧
        cring_rle_encode (input.drop (min input.length 32)) = some out' ∧
        out = ((((min input.length 32 - 1) <<< 2) % 256) ||| 0) ::
          (input.take (min input.length 32) ++ out')) ∨
    (∃ best v r out', rleChosen input = some (best, v) ∧ best ≠ 0 ∧ best < 4 ∧
        cring_rle_calc_max_block_repeats input best = some r ∧ r % 256 ≠ 0 ∧
        cring_rle_encode (input.drop (r * best)) = some out' ∧
        out = ((((r % 256 - 1) <<< 2) % 256) ||| best) :: (input.take best ++ out')) := by
  cases hch : rleChosen input with
  | none =>
    exfalso
    cases input with
    | nil => exact hne rfl
    | cons a l =>
      rw [show cring_rle_encode (a :: l) = cring_rle_encodeF (l.length + 1) (a :: l) from rfl]
        at henc
      simp only [cring_rle_encodeF, if_neg (List.cons_ne_nil a l), hch] at henc
      exact Option.noConfusion henc
  | some p =>
    cases p with
    | mk best v =>
      by_cases hbz : best = 0
      · subst hbz
        left
        rw [cring_rle_encode_literal_step input v hne hch] at henc
        obtain ⟨out', hout', hmap⟩ := Option.map_eq_some'.mp henc
        exact ⟨v, out', rfl, hout', hmap.symm⟩
      · right
        have hb4 : best < 4 := rleChosen_best_lt4 input best v hch
        obtain ⟨r, hr⟩ := rleChosen_repeat_defined input best v hne hch hbz
        by_cases hr256 : r % 256 = 0
        · exfalso
          cases input with
          | nil => exact hne rfl
          | cons a l =>
            rw [show cring_rle_encode (a :: l) = cring_rle_encodeF (l.length + 1) (a :: l)
              from rfl] at henc
            simp only [cring_rle_encodeF, if_neg (List.cons_ne_nil a l), hch, if_neg hbz, hr,
              cring_rle_calc_header, if_pos hr256] at henc
            exact Option.noConfusion henc
        · rw [cring_rle_encode_repeat_step input best v r hne hch hbz hb4 hr hr256] at henc
          obtain ⟨out', hout', hmap⟩ := Option.map_eq_some'.mp henc
          exact ⟨best, v, r, out', rfl, hbz, hb4, hr, hr256, hout', hmap.symm⟩

/-! ## Round trip of the codec when no repeat count exceeds 64 -/

/-- Auxiliary round-trip induction: when no suffix of the input admits a
repeat count above 64, every emitted header survives the six-bit length
field unchanged and decoding the encoder output reproduces the input. -/
theorem decode_encode_aux :
    ∀ n (x out : List Nat), x.length ≤ n →
      (∀ t, t <:+ x → ∀ b, b < 4 →
        (cring_rle_calc_max_block_repeats t b).getD 0 ≤ 64) →
      cring_rle_encode x = some out →
      cring_rle_decode out = some x := by
  intro n
  induction n with
  | zero =>
    intro x out hl _ henc
    have hx : x = [] := List.eq_nil_of_length_eq_zero (Nat.le_zero.mp hl)
    subst hx
    have hout : out = [] := (Option.some.inj henc).symm
    subst hout
    rfl
  | succ n ih =>
    intro x out hl hrun henc
    by_cases hne : x = []
    · subst hne
      have hout : out = [] := (Option.some.inj henc).symm
      subst hout
      rfl
    · have hxlen : 1 ≤ x.length := by
        cases x with
        | nil => exact absurd rfl hne
        | cons _ _ => simp
      rcases cring_rle_encode_some_inv x out hne henc with
        ⟨v, out', hch, hout', hform⟩ | ⟨best, v, r, out', hch, hbz, hb4, hr, hr256, hout', hform⟩
      · -- literal block of min(len, 32) bytes
        subst hform
        have hm1 : 1 ≤ min x.length 32 := by omega
        have hm32 : min x.length 32 ≤ 32 := Nat.min_le_right _ _
        have hmx : min x.length 32 ≤ x.length := Nat.min_le_left _ _
        have hdr := header_bits (min x.length 32 - 1) (by omega) 0 (by omega)
        have hlen64 : (min x.length 32 - 1) % 64 + 1 = min x.length 32 := by omega
        have htl : (x.take (min x.length 32)).length = min x.length 32 := by
          rw [List.length_take]; omega
        rw [cring_rle_decode_cons]
        rw [hdr.1, hdr.2, hlen64, if_pos rfl,
          if_pos (by rw [List.length_append, htl]; omega),
          List.take_left' htl, List.drop_left' htl,
          ih (x.drop (min x.length 32)) out'
            (by rw [List.length_drop]; omega)
            (fun t ht b hb => hrun t (ht.trans (List.drop_suffix _ x)) b hb)
            hout']
        rw [Option.map_some']
        rw [List.take_append_drop]
      · -- repeat block: r copies of the leading best-byte unit
        subst hform
        have hr64 : r ≤ 64 := by
          have := hrun x (List.suffix_refl x) best hb4
          rw [hr] at this
          exact this
        have hr1 : 1 ≤ r := calc_max_block_repeats_pos _ _ _ hr
        have hrmod : r % 256 = r := Nat.mod_eq_of_lt (by omega)
        obtain ⟨hbz', hblen, hrcount⟩ := calc_max_block_repeats_some x best r hr
        have hdr := header_bits (r % 256 - 1) (by omega) best hb4
        have hlen64 : (r % 256 - 1) % 64 + 1 = r := by omega
        have htl : (x.take best).length = best := by
          rw [List.length_take]; omega
        have hrb1 : 1 ≤ r * best := by
          calc 1 = 1 * 1 := rfl
            _ ≤ r * best := Nat.mul_le_mul hr1 (by omega)
        rw [cring_rle_decode_cons]
        rw [hdr.1, hdr.2, hlen64, if_neg hbz,
          if_pos (by rw [List.length_append, htl]; omega),
          List.take_left' htl, List.drop_left' htl,
          ih (x.drop (r * best)) out'
            (by rw [List.length_drop]; omega)
            (fun t ht b hb => hrun t (ht.trans (List.drop_suffix _ x)) b hb)
            hout']
        rw [Option.map_some']
        have hexp := countRepeats_expand x.length (x.take best) x (Nat.le_refl _)
          (by intro hnil; rw [hnil] at htl; simp at htl; omega)
        rw [← hrcount, htl] at hexp
        rw [hexp]

/-! ## Claim C1: round trip of the codec -/

/-- C1 (counterexample): the claim `decode(encode(x)) = x` for every byte
sequence fails at 65 repeated zero bytes.  The encoder picks the unit-size-1
repeat with count 65, but the header stores `count - 1` in six bits, so the
emitted header `((65 - 1) << 2) as u8 | 1` collapses to `0x01` (count 1) and
the decoder reproduces a single zero. -/
theorem C1_counterexample :
    (cring_rle_encode (List.replicate 65 0)).bind cring_rle_decode ≠
      some (List.replicate 65 0) := by decide

/-- C1 (amended): for every byte sequence in which no suffix has a
unit-size-1/2/3 repeat count above 64 (so every emitted header's six-bit
count field is exact and no `u8` cast wraps), decoding the encoder's output
reproduces the input exactly; this covers the empty sequence, sequences
with no repeats and sequences with short repeating blocks. -/
theorem C1_round_trip_bounded_runs (x : List Nat)
    (hrun : ∀ t, t <:+ x → ∀ b, b < 4 →
      (cring_rle_calc_max_block_repeats t b).getD 0 ≤ 64) :
    (cring_rle_encode x).bind cring_rle_decode = some x := by
  have hdiv : ∀ t, t <:+ x → ∀ b, b < 4 → ∀ r,
      cring_rle_calc_max_block_repeats t b = some r → b * r % 256 ≠ 0 := by
    intro t ht b hb r hrr
    have h64 := hrun t ht b hb
    rw [hrr] at h64
    have hr1 := calc_max_block_repeats_pos t b r hrr
    have hb1 : b ≠ 0 := (calc_max_block_repeats_some t b r hrr).1
    have hle : b * r ≤ 3 * 64 := Nat.mul_le_mul (by omega) h64
    have hge : 1 ≤ b * r := by
      calc 1 = 1 * 1 := rfl
        _ ≤ b * r := Nat.mul_le_mul (by omega) hr1
    omega
  obtain ⟨out, hout⟩ := cring_rle_encode_total_aux x.length x (Nat.le_refl _) hdiv
  rw [hout]
  exact decode_encode_aux x.length x out (Nat.le_refl _) hrun hout

/-- C1 (witness): the bounded-run round trip applied to a concrete sequence
with a short repeating block. -/
theorem C1_witness :
    (cring_rle_encode [0, 0, 2, 3, 4, 2, 3, 4]).bind cring_rle_decode =
      some [0, 0, 2, 3, 4, 2, 3, 4] := by
  apply C1_round_trip_bounded_runs
  intro t ht b hb
  have hd : ∀ t ∈ ([0, 0, 2, 3, 4, 2, 3, 4] : List Nat).tails, ∀ b < 4,
      (cring_rle_calc_max_block_repeats t b).getD 0 ≤ 64 := by decide
  exact hd t ((List.mem_tails _ _).mpr ht) b hb

/-! ## Claim C2: totality of the encoder -/

set_option maxRecDepth 4000000 in
/-- C2 (counterexample): encoding is not total.  On 256 repeated zero bytes
the unit-size-1 candidate has repeat count 256, whose consumed size
`(1 * 256) as u8` collapses to 0, and
`cring_rle_calc_block_savings_frac` divides by zero (a panic, modelled as
`none`). -/
theorem C2_counterexample : cring_rle_encode (List.replicate 256 0) = none := by decide

/-- C2 (amended): the encoder terminates and returns a result on every input
in which no suffix has a unit-size-b repeat count r with `b * r ≡ 0 mod 256`;
under that condition the savings-fraction division, the run-length-nonzero
assertion and the unit-size assertion never fail.  (A 256-byte run of one
value violates the condition and makes the encoder panic.) -/
theorem C2_encode_total_no_wrap (x : List Nat)
    (hdiv : ∀ t ∈ x.tails, ∀ b, b < 4 →
      (cring_rle_calc_max_block_repeats t b).all (fun r => b * r % 256 != 0) = true) :
    (cring_rle_encode x).isSome := by
  have hdiv' : ∀ t, t <:+ x → ∀ b, b < 4 → ∀ r,
      cring_rle_calc_max_block_repeats t b = some r → b * r % 256 ≠ 0 := by
    intro t ht b hb r hrr
    have hall := hdiv t ((List.mem_tails _ _).mpr ht) b hb
    rw [hrr] at hall
    simpa using hall
  obtain ⟨out, hout⟩ := cring_rle_encode_total_aux x.length x (Nat.le_refl _) hdiv'
  rw [hout]
  rfl

/-- C2 (witness): the encoder succeeds on a concrete short run. -/
theorem C2_witness : (cring_rle_encode [7, 7, 7]).isSome :=
  C2_encode_total_no_wrap [7, 7, 7] (by decide)

/-! ## Claim C3: decoding a truncated stream -/

/-- Formalisation of the claim's notion of framing (fuel-driven): walk the
stream block by block exactly as `cring_rle_decode` does and require every
header's payload to fit in the remaining bytes. -/
def rleWellFramedF : Nat → List Nat → Bool
  | 0, input => input.isEmpty
  | fuel + 1, input =>
    match input with
    | [] => true
    | header :: rest =>
      if cring_rle_get_header_block_size header = 0 then
        if cring_rle_get_header_len header ≤ rest.length then
          rleWellFramedF fuel (rest.drop (cring_rle_get_header_len header))
        else false
      else
        if cring_rle_get_header_block_size header ≤ rest.length then
          rleWellFramedF fuel (rest.drop (cring_rle_get_header_block_size header))
        else false

/-- A stream is well-framed when no block header claims more payload bytes
than remain. -/
def rleWellFramed (input : List Nat) : Bool := rleWellFramedF input.length input

theorem rleWellFramedF_stable :
    ∀ f₁ f₂ input, input.length ≤ f₁ → input.length ≤ f₂ →
      rleWellFramedF f₁ input = rleWellFramedF f₂ input := by
  intro f₁
  induction f₁ with
  | zero =>
    intro f₂ input h1 _
    have : input = [] := List.eq_nil_of_length_eq_zero (Nat.le_zero.mp h1)
    subst this
    cases f₂ <;> simp [rleWellFramedF]
  | succ f ih =>
    intro f₂ input h1 h2
    cases input with
    | nil => cases f₂ <;> simp [rleWellFramedF]
    | cons a rest =>
      cases f₂ with
      | zero => simp at h2
      | succ g =>
        simp only [rleWellFramedF]
        by_cases hbs : cring_rle_get_header_block_size a = 0
        · rw [if_pos hbs, if_pos hbs]
          by_cases hlen : cring_rle_get_header_len a ≤ rest.length
          · rw [if_pos hlen, if_pos hlen]
            apply ih
            · rw [List.length_drop]
              simp only [List.length_cons] at h1
              omega
            · rw [List.length_drop]
              simp only [List.length_cons] at h2
              omega
          · rw [if_neg hlen, if_neg hlen]
        · rw [if_neg hbs, if_neg hbs]
          by_cases hlen : cring_rle_get_header_block_size a ≤ rest.length
          · rw [if_pos hlen, if_pos hlen]
            apply ih
            · rw [List.length_drop]
              simp only [List.length_cons] at h1
              omega
            · rw [List.length_drop]
              simp only [List.length_cons] at h2
              omega
          · rw [if_neg hlen, if_neg hlen]

/-- Step equation of the framing walk. -/
theorem rleWellFramed_cons (header : Nat) (rest : List Nat) :
    rleWellFramed (header :: rest) =
      if cring_rle_get_header_block_size header = 0 then
        if cring_rle_get_header_len header ≤ rest.length then
          rleWellFramed (rest.drop (cring_rle_get_header_len header))
        else false
      else
        if cring_rle_get_header_block_size header ≤ rest.length then
          rleWellFramed (rest.drop (cring_rle_get_header_block_size header))
        else false := by
  show rleWellFramedF (rest.length + 1) (header :: rest) = _
  simp only [rleWellFramedF]
  by_cases hbs : cring_rle_get_header_block_size header = 0
  · rw [if_pos hbs, if_pos hbs]
    by_cases hlen : cring_rle_get_header_len header ≤ rest.length
    · rw [if_pos hlen, if_pos hlen]
      apply rleWellFramedF_stable
      · rw [List.length_drop]; omega
      · exact Nat.le_refl _
    · rw [if_neg hlen, if_neg hlen]
  · rw [if_neg hbs, if_neg hbs]
    by_cases hlen : cring_rle_get_header_block_size header ≤ rest.length
    · rw [if_pos hlen, if_pos hlen]
      apply rleWellFramedF_stable
      · rw [List.length_drop]; omega
      · exact Nat.le_refl _
    · rw [if_neg hlen, if_neg hlen]

/-- The decoder panics exactly on ill-framed streams. -/
theorem decode_none_iff_aux :
    ∀ n (input : List Nat), input.length ≤ n →
      (cring_rle_decode input = none ↔ rleWellFramed input = false) := by
  intro n
  induction n with
  | zero =>
    intro input h1
    have : input = [] := List.eq_nil_of_length_eq_zero (Nat.le_zero.mp h1)
    subst this
    simp [cring_rle_decode_nil, rleWellFramed, rleWellFramedF]
  | succ n ih =>
    intro input h1
    cases input with
    | nil => simp [cring_rle_decode_nil, rleWellFramed, rleWellFramedF]
    | cons header rest =>
      rw [cring_rle_decode_cons, rleWellFramed_cons]
      simp only [List.length_cons] at h1
      by_cases hbs : cring_rle_get_header_block_size header = 0
      · rw [if_pos hbs, if_pos hbs]
        by_cases hlen : cring_rle_get_header_len header ≤ rest.length
        · rw [if_pos hlen, if_pos hlen]
          rw [Option.map_eq_none']
          exact ih (rest.drop (cring_rle_get_header_len header))
            (by rw [List.length_drop]; omega)
        · rw [if_neg hlen, if_neg hlen]
          simp
      · rw [if_neg hbs, if_neg hbs]
        by_cases hlen : cring_rle_get_header_block_size header ≤ rest.length
        · rw [if_pos hlen, if_pos hlen]
          rw [Option.map_eq_none']
          exact ih (rest.drop (cring_rle_get_header_block_size header))
            (by rw [List.length_drop]; omega)
        · rw [if_neg hlen, if_neg hlen]
          simp

/-- C3 (counterexample): on the one-byte stream `[0x18]` — a literal header
claiming 7 payload bytes with none remaining — `cring_rle_decode` panics
(out-of-bounds slice `&input[1..][..7]`, modelled `none`); it does not
return a `TruncatedStream` error value, and indeed its Rust signature
`fn(&[u8]) -> Vec<u8>` has no error channel at all. -/
theorem C3_counterexample : cring_rle_decode [24] = none := by decide

/-- C3 (amended): for every input stream in which some block header claims
more payload bytes than remain (and only for those), `cring_rle_decode`
panics — modelled as `none` — instead of succeeding or returning an error
result; no `TruncatedStream` error value exists in the code. -/
theorem C3_decode_truncated_panics (input : List Nat) :
    cring_rle_decode input = none ↔ rleWellFramed input = false :=
  decode_none_iff_aux input.length input (Nat.le_refl _)

/-! ## Claim C5: greedy selection is locally optimal with first-index ties -/

/-- The encoder's candidate savings entry at index `j` (0 = literal,
1..3 = repeat of that unit size), exactly the `possible_block_savings`
array entry read by `min_by_key`. -/
def rleSavingsAt (input : List Nat) (j : Nat) : Option Nat :=
  if j = 0 then rleSavings0 input else rleSavings input j

/-- C5: at every encoding position the selected candidate's savings fraction
is defined, is never strictly worse than any of the four evaluated entries,
and every candidate earlier in enumeration order (literal, then unit sizes
1, 2, 3) is strictly worse — i.e. `min_by_key` returns the first minimum. -/
theorem C5_greedy_local_optimal (input : List Nat) (best v : Nat)
    (h : rleChosen input = some (best, v)) :
    best < 4 ∧ rleSavingsAt input best = some v ∧
    (∀ j, j < 4 → ∀ w, rleSavingsAt input j = some w → v ≤ w) ∧
    (∀ j, j < best → ∀ w, rleSavingsAt input j = some w → v < w) := by
  obtain ⟨s0, s1, s2, s3, hs0, hs1, hs2, hs3, heq⟩ := rleChosen_inv input best v h
  have spec := minByFold_spec s0 s1 s2 s3
  rw [← heq] at spec
  obtain ⟨hmem, h0, h1, h2, h3, hc1, hc2, hc3, hlt4⟩ := spec
  have ha0 : rleSavingsAt input 0 = some s0 := by
    rw [show rleSavingsAt input 0 = rleSavings0 input from rfl, hs0]
  have ha1 : rleSavingsAt input 1 = some s1 := by
    rw [show rleSavingsAt input 1 = rleSavings input 1 from rfl, hs1]
  have ha2 : rleSavingsAt input 2 = some s2 := by
    rw [show rleSavingsAt input 2 = rleSavings input 2 from rfl, hs2]
  have ha3 : rleSavingsAt input 3 = some s3 := by
    rw [show rleSavingsAt input 3 = rleSavings input 3 from rfl, hs3]
  have hbound : ∀ j, j < 4 → ∀ w, rleSavingsAt input j = some w → v ≤ w := by
    intro j hj w hw
    interval_cases j
    · rw [ha0] at hw
      exact (Option.some.inj hw) ▸ h0
    · rw [ha1] at hw
      exact (Option.some.inj hw) ▸ h1
    · rw [ha2] at hw
      exact (Option.some.inj hw) ▸ h2
    · rw [ha3] at hw
      exact (Option.some.inj hw) ▸ h3
  refine ⟨hlt4, ?_, hbound, ?_⟩
  · rcases hmem with ⟨hb, hv⟩ | ⟨hb, hv⟩ | ⟨hb, hv⟩ | ⟨hb, hv⟩ <;>
      simp only at hb hv <;> subst hb <;> subst hv
    · exact ha0
    · exact ha1
    · exact ha2
    · exact ha3
  · intro j hj w hw
    rcases hmem with ⟨hb, hv⟩ | ⟨hb, hv⟩ | ⟨hb, hv⟩ | ⟨hb, hv⟩ <;>
        simp only at hb hv <;> subst hb <;> subst hv
    · omega
    · have hlt := hc1 rfl
      interval_cases j
      rw [ha0] at hw
      exact (Option.some.inj hw) ▸ hlt
    · have hlt := hc2 rfl
      interval_cases j
      · rw [ha0] at hw
        exact (Option.some.inj hw) ▸ hlt.1
      · rw [ha1] at hw
        exact (Option.some.inj hw) ▸ hlt.2
    · have hlt := hc3 rfl
      interval_cases j
      · rw [ha0] at hw
        exact (Option.some.inj hw) ▸ hlt.1
      · rw [ha1] at hw
        exact (Option.some.inj hw) ▸ hlt.2.1
      · rw [ha2] at hw
        exact (Option.some.inj hw) ▸ hlt.2.2

/-- C5 (witness): the selection lemma applied at the one-byte input `[0]`,
where the literal and unit-size-1 candidates tie at 2000 and the literal
(enumeration-first) wins. -/
theorem C5_witness :
    (0 : Nat) < 4 ∧ rleSavingsAt [0] 0 = some 2000 ∧
    (∀ j, j < 4 → ∀ w, rleSavingsAt [0] j = some w → 2000 ≤ w) ∧
    (∀ j, j < 0 → ∀ w, rleSavingsAt [0] j = some w → 2000 < w) :=
  C5_greedy_local_optimal [0] 0 2000 (by decide)

/-! ## Claim C6: the spec's example vectors -/

/-- C6 (counterexample): the spec's third vector is wrong.  The second block
of `encode([0,0,2,3,4,5,6])` is a five-byte literal with header
`(5-1)<<2|0 = 0x10`, not `0x18` as claimed. -/
theorem C6_counterexample :
    cring_rle_encode [0, 0, 2, 3, 4, 5, 6] ≠ some [5, 0, 24, 2, 3, 4, 5, 6] := by decide

/-- C6 (amended): the encoder's actual outputs on the spec's four vectors,
matching the repository test `rle_encode_correct`: the third vector's second
header is `0x10` (five-byte literal) and the fourth vector's second header is
`0x07` (`1<<2|3`), not `0x18` / `0x0D` as the spec wrote. -/
theorem C6_example_vectors :
    cring_rle_encode [] = some [] ∧
    cring_rle_encode [0, 1, 2, 3, 4, 5, 6] = some [24, 0, 1, 2, 3, 4, 5, 6] ∧
    cring_rle_encode [0, 0, 2, 3, 4, 5, 6] = some [5, 0, 16, 2, 3, 4, 5, 6] ∧
    cring_rle_encode [0, 0, 2, 3, 4, 2, 3, 4] = some [5, 0, 7, 2, 3, 4] := by decide

/-! ## Claim C8: literal blocks never span more than 32 source bytes -/

/-- Spec-side walk over an encoded stream (fuel-driven) checking that every
literal block's count field is at most 32; repeat blocks are skipped. -/
def rleLiteralBlocksLe32F : Nat → List Nat → Bool
  | 0, _ => true
  | fuel + 1, input =>
    match input with
    | [] => true
    | header :: rest =>
      if cring_rle_get_header_block_size header = 0 then
        decide (cring_rle_get_header_len header ≤ 32) &&
          rleLiteralBlocksLe32F fuel (rest.drop (cring_rle_get_header_len header))
      else
        rleLiteralBlocksLe32F fuel (rest.drop (cring_rle_get_header_block_size header))

/-- Every literal block in the stream covers at most 32 bytes. -/
def rleLiteralBlocksLe32 (input : List Nat) : Bool :=
  rleLiteralBlocksLe32F input.length input

theorem rleLiteralBlocksLe32F_stable :
    ∀ f₁ f₂ input, input.length ≤ f₁ → input.length ≤ f₂ →
      rleLiteralBlocksLe32F f₁ input = rleLiteralBlocksLe32F f₂ input := by
  intro f₁
  induction f₁ with
  | zero =>
    intro f₂ input h1 _
    have : input = [] := List.eq_nil_of_length_eq_zero (Nat.le_zero.mp h1)
    subst this
    cases f₂ <;> simp [rleLiteralBlocksLe32F]
  | succ f ih =>
    intro f₂ input h1 h2
    cases input with
    | nil => cases f₂ <;> simp [rleLiteralBlocksLe32F]
    | cons a rest =>
      cases f₂ with
      | zero => simp at h2
      | succ g =>
        simp only [rleLiteralBlocksLe32F]
        by_cases hbs : cring_rle_get_header_block_size a = 0
        · rw [if_pos hbs, if_pos hbs]
          congr 1
          apply ih
          · rw [List.length_drop]
            simp only [List.length_cons] at h1
            omega
          · rw [List.length_drop]
            simp only [List.length_cons] at h2
            omega
        · rw [if_neg hbs, if_neg hbs]
          apply ih
          · rw [List.length_drop]
            simp only [List.length_cons] at h1
            omega
          · rw [List.length_drop]
            simp only [List.length_cons] at h2
            omega

/-- Step equation of the literal-cap walk. -/
theorem rleLiteralBlocksLe32_cons (header : Nat) (rest : List Nat) :
    rleLiteralBlocksLe32 (header :: rest) =
      if cring_rle_get_header_block_size header = 0 then
        decide (cring_rle_get_header_len header ≤ 32) &&
          rleLiteralBlocksLe32 (rest.drop (cring_rle_get_header_len header))
      else
        rleLiteralBlocksLe32 (rest.drop (cring_rle_get_header_block_size header)) := by
  show rleLiteralBlocksLe32F (rest.length + 1) (header :: rest) = _
  simp only [rleLiteralBlocksLe32F]
  by_cases hbs : cring_rle_get_header_block_size header = 0
  · rw [if_pos hbs, if_pos hbs]
    congr 1
    apply rleLiteralBlocksLe32F_stable
    · rw [List.length_drop]; omega
    · exact Nat.le_refl _
  · rw [if_neg hbs, if_neg hbs]
    apply rleLiteralBlocksLe32F_stable
    · rw [List.length_drop]; omega
    · exact Nat.le_refl _

/-- Auxiliary induction for the literal cap. -/
theorem literal_cap_aux :
    ∀ n (x out : List Nat), x.length ≤ n → cring_rle_encode x = some out →
      rleLiteralBlocksLe32 out = true := by
  intro n
  induction n with
  | zero =>
    intro x out hl henc
    have hx : x = [] := List.eq_nil_of_length_eq_zero (Nat.le_zero.mp hl)
    subst hx
    have hout : out = [] := (Option.some.inj henc).symm
    subst hout
    rfl
  | succ n ih =>
    intro x out hl henc
    by_cases hne : x = []
    · subst hne
      have hout : out = [] := (Option.some.inj henc).symm
      subst hout
      rfl
    · have hxlen : 1 ≤ x.length := by
        cases x with
        | nil => exact absurd rfl hne
        | cons _ _ => simp
      rcases cring_rle_encode_some_inv x out hne henc with
        ⟨v, out', hch, hout', hform⟩ | ⟨best, v, r, out', hch, hbz, hb4, hr, hr256, hout', hform⟩
      · subst hform
        have hm1 : 1 ≤ min x.length 32 := by omega
        have hm32 : min x.length 32 ≤ 32 := Nat.min_le_right _ _
        have hmx : min x.length 32 ≤ x.length := Nat.min_le_left _ _
        have hdr := header_bits (min x.length 32 - 1) (by omega) 0 (by omega)
        have hlen64 : (min x.length 32 - 1) % 64 + 1 = min x.length 32 := by omega
        have htl : (x.take (min x.length 32)).length = min x.length 32 := by
          rw [List.length_take]; omega
        rw [rleLiteralBlocksLe32_cons, hdr.1, hdr.2, hlen64, if_pos rfl,
          List.drop_left' htl,
          ih (x.drop (min x.length 32)) out' (by rw [List.length_drop]; omega) hout']
        simp only [Bool.and_true, decide_eq_true_eq]
        omega
      · subst hform
        obtain ⟨hbz', hblen, hrcount⟩ := calc_max_block_repeats_some x best r hr
        have hdr := header_bits (r % 256 - 1) (by omega) best hb4
        have htl : (x.take best).length = best := by
          rw [List.length_take]; omega
        rw [rleLiteralBlocksLe32_cons, hdr.1, if_neg hbz, List.drop_left' htl]
        have hr1 : 1 ≤ r := calc_max_block_repeats_pos _ _ _ hr
        have hrb1 : 1 ≤ r * best := by
          calc 1 = 1 * 1 := rfl
            _ ≤ r * best := Nat.mul_le_mul hr1 (by omega)
        exact ih (x.drop (r * best)) out' (by rw [List.length_drop]; omega) hout'

/-- C8: in every successful encoder output every literal block covers at
most 32 source bytes, even when more than 32 non-repeating bytes are
available (the encoder clamps `max_len` to `input.len().min(32)`). -/
theorem C8_literal_cap (x out : List Nat) (henc : cring_rle_encode x = some out) :
    rleLiteralBlocksLe32 out = true :=
  literal_cap_aux x.length x out (Nat.le_refl _) henc

/-- C8 (witness): forty distinct bytes (more than 32 literal bytes
available) encode into two literal blocks of 32 and 8 bytes. -/
theorem C8_witness :
    rleLiteralBlocksLe32 ((cring_rle_encode (List.range 40)).getD []) = true :=
  C8_literal_cap (List.range 40) _ (by decide)

/-! ## Claim C9: header packing round trip -/

/-- C9: for every `len` in `[1, 64]` and `unit` in `[0, 3]`,
`cring_rle_calc_header` succeeds and both assertions of the claim hold:
`get_block_size(make_header(len, unit)) = unit` and
`get_len(make_header(len, unit)) = len`. -/
theorem C9_header_roundtrip :
    ∀ len, len ≤ 64 → 1 ≤ len → ∀ unit, unit ≤ 3 →
      (cring_rle_calc_header len unit).map cring_rle_get_header_block_size = some unit ∧
      (cring_rle_calc_header len unit).map cring_rle_get_header_len = some len := by decide

/-- C9 (witness): the header round trip at `len = 2`, `unit = 1`
(header `0x05`). -/
theorem C9_witness :
    (cring_rle_calc_header 2 1).map cring_rle_get_header_block_size = some 1 ∧
    (cring_rle_calc_header 2 1).map cring_rle_get_header_len = some 2 :=
  C9_header_roundtrip 2 (by decide) (by decide) 1 (by decide)

/-! ## Claim C10: the firmware's bounded re-encode buffer (`firmware/src/main.rs`) -/

/-- A `heapless::Vec<u8, BUFFER_SIZE>`: current contents plus fixed capacity. -/
structure HVec where
  data : List Nat
  cap : Nat
deriving DecidableEq

/-- Firmware `cring_rle_push_on_vec` (main.rs:529): `vec.push(val).ok();`.
`heapless::Vec::push` returns `Err(val)` when the vector is full and `.ok()`
discards that result, so pushing onto a full buffer is a silent no-op —
no panic, no propagated error. -/
def cring_rle_push_on_vec (v : HVec) (val : Nat) : HVec :=
  if v.data.length < v.cap then ⟨v.data ++ [val], v.cap⟩ else v

/-- Pushing a byte sequence one byte at a time. -/
def fw_pushList (v : HVec) (l : List Nat) : HVec :=
  l.foldl cring_rle_push_on_vec v

/-- Fuel-driven firmware encoder loop (firmware main.rs:425): the same
algorithm as the host `cring_rle_encode`, but every output byte goes through
`cring_rle_push_on_vec` into the bounded buffer. -/
def fw_cring_rle_encodeF : Nat → List Nat → HVec → Option HVec
  | 0, input, v => if input = [] then some v else none
  | fuel + 1, input, v =>
    if input = [] then some v
    else
      match rleChosen input with
      | none => none
      | some (best, _) =>
        if best = 0 then
          match cring_rle_calc_header (min input.length 32 % 256) 0 with
          | none => none
          | some h =>
            fw_cring_rle_encodeF fuel (input.drop (min input.length 32))
              (fw_pushList v (h :: input.take (min input.length 32)))
        else
          match cring_rle_calc_max_block_repeats input best with
          | none => none
          | some r =>
            match cring_rle_calc_header (r % 256) (best % 256) with
            | none => none
            | some h =>
              fw_cring_rle_encodeF fuel (input.drop (r * best))
                (fw_pushList v (h :: input.take best))

/-- Firmware `cring_rle_encode(input, output)`: `output.clear()` then the
loop, on a buffer of capacity `cap`. -/
def fw_cring_rle_encode (input : List Nat) (cap : Nat) : Option HVec :=
  fw_cring_rle_encodeF input.length input ⟨[], cap⟩

/-- The firmware loop pushes exactly the host encoder's output bytes. -/
theorem fw_encodeF_eq_map :
    ∀ fuel input v, fw_cring_rle_encodeF fuel input v =
      (cring_rle_encodeF fuel input).map (fw_pushList v) := by
  intro fuel
  induction fuel with
  | zero =>
    intro input v
    by_cases h : input = [] <;>
      simp [fw_cring_rle_encodeF, cring_rle_encodeF, h, fw_pushList]
  | succ fuel ih =>
    intro input v
    by_cases h : input = []
    · simp [fw_cring_rle_encodeF, cring_rle_encodeF, h, fw_pushList]
    · simp only [fw_cring_rle_encodeF, cring_rle_encodeF, if_neg h]
      split
      · rfl
      · rename_i p best w heqch
        split
        · rename_i hb0
          split
          · rfl
          · rename_i hd hh
            rw [ih]
            cases henc : cring_rle_encodeF fuel (input.drop (min input.length 32)) with
            | none => rfl
            | some out =>
              rw [Option.map_some', Option.map_some', Option.map_some']
              congr 1
              show fw_pushList (fw_pushList v (hd :: input.take (min input.length 32))) out = _
              rw [fw_pushList, fw_pushList, ← List.foldl_append, fw_pushList]
              rfl
        · rename_i hb0
          split
          · rfl
          · rename_i r heqmax
            split
            · rfl
            · rename_i hd hh
              rw [ih]
              cases henc : cring_rle_encodeF fuel (input.drop (r * best)) with
              | none => rfl
              | some out =>
                rw [Option.map_some', Option.map_some', Option.map_some']
                congr 1
                show fw_pushList (fw_pushList v (hd :: input.take best)) out = _
                rw [fw_pushList, fw_pushList, ← List.foldl_append, fw_pushList]
                rfl

/-- Pushing a list into a partially filled buffer keeps the prefix and
truncates at capacity. -/
theorem fw_pushList_spec :
    ∀ (l : List Nat) (v : HVec), v.data.length ≤ v.cap →
      fw_pushList v l = ⟨v.data ++ l.take (v.cap - v.data.length), v.cap⟩ := by
  intro l
  induction l with
  | nil =>
    intro v _
    simp [fw_pushList]
  | cons x l ih =>
    intro v hle
    show fw_pushList (cring_rle_push_on_vec v x) l = _
    by_cases hlt : v.data.length < v.cap
    · rw [show cring_rle_push_on_vec v x = ⟨v.data ++ [x], v.cap⟩ from if_pos hlt]
      rw [ih ⟨v.data ++ [x], v.cap⟩ (by simp only [List.length_append]; simp; omega)]
      have hk : v.cap - v.data.length = (v.cap - (v.data.length + 1)) + 1 := by omega
      rw [hk, List.take_succ_cons]
      simp [List.append_assoc]
    · rw [show cring_rle_push_on_vec v x = v from if_neg hlt]
      have hfull : v.cap - v.data.length = 0 := by omega
      rw [ih v hle, hfull]
      simp [hfull]

/-- C10: pushing onto the full fixed-capacity buffer never panics and never
signals an error (it is the identity), and consequently the firmware-side
re-encode produces exactly the unbounded encoder output truncated to the
buffer capacity — every byte past capacity is silently dropped. -/
theorem C10_push_full_drops :
    (∀ (v : HVec) (val : Nat), ¬ v.data.length < v.cap →
      cring_rle_push_on_vec v val = v) ∧
    (∀ (input : List Nat) (cap : Nat) (out : List Nat),
      cring_rle_encode input = some out →
      fw_cring_rle_encode input cap = some ⟨out.take cap, cap⟩) := by
  constructor
  · intro v val hfull
    unfold cring_rle_push_on_vec
    rw [if_neg hfull]
  · intro input cap out henc
    unfold fw_cring_rle_encode
    rw [fw_encodeF_eq_map]
    rw [show cring_rle_encodeF input.length input = some out from henc, Option.map_some']
    congr 1
    have hs := fw_pushList_spec out ⟨[], cap⟩ (by simp)
    simpa using hs

/-- C10 (witness): a push onto a full two-byte buffer is dropped, and
encoding five bytes into a three-byte buffer keeps only the first three
output bytes. -/
theorem C10_witness :
    cring_rle_push_on_vec ⟨[1, 2], 2⟩ 9 = ⟨[1, 2], 2⟩ ∧
    fw_cring_rle_encode [0, 1, 2, 3, 4] 3 = some ⟨[16, 0, 1], 3⟩ := by
  constructor
  · exact C10_push_full_drops.1 ⟨[1, 2], 2⟩ 9 (by decide)
  · have h := C10_push_full_drops.2 [0, 1, 2, 3, 4] 3 [16, 0, 1, 2, 3, 4] (by decide)
    simpa using h

/-! ## Claim C7: the host-side transfer sequence (`cring_acc_send_bmp`, lib.rs:153) -/

/-- Device status byte to host error code (`cring_map_from_device_error`,
lib.rs:362): `0 -> CRING_EOK`, `1 -> CRING_EACC_UNSUP_COMP`,
`2 -> CRING_EACC_PARSE`, anything else `CRING_EACC_UNKNOWN`. -/
def cring_map_from_device_error (e : Nat) : Int :=
  if e = 0 then 0
  else if e = 1 then -101
  else if e = 2 then -102
  else -100

/-- One bulk transfer issued by the host: endpoint number plus the byte count
sent (`bulkOut`) or the capacity requested (`bulkIn`). -/
inductive UsbEvent where
  | bulkOut : Nat → Nat → UsbEvent
  | bulkIn : Nat → Nat → UsbEvent
deriving DecidableEq

/-- The transfers issued by a fully successful `cring_acc_send_bmp` when the
device answers with status byte `status`: one `bulk_out` of the whole encoded
image on endpoint `0x01`, one zero-length `bulk_out`, one one-byte status
`bulk_in` on endpoint `0x81`, and — only when the mapped status is
`CRING_EOK` — one response `bulk_in` sized to the encoded length.  `none`
models the `CRING_EINVAL` rejection of an empty image and an encoder panic. -/
def cring_acc_send_bmp_events (bmp : List Nat) (status : Nat) : Option (List UsbEvent) :=
  if bmp.length = 0 then none
  else
    match cring_rle_encode bmp with
    | none => none
    | some enc =>
      some ([UsbEvent.bulkOut 1 enc.length, UsbEvent.bulkOut 1 0, UsbEvent.bulkIn 129 1] ++
        (if cring_map_from_device_error status = 0 then [UsbEvent.bulkIn 129 enc.length]
         else []))

def isBulkIn : UsbEvent → Bool
  | UsbEvent.bulkIn _ _ => true
  | UsbEvent.bulkOut _ _ => false

def isZeroLenOut : UsbEvent → Bool
  | UsbEvent.bulkOut _ n => n == 0
  | UsbEvent.bulkIn _ _ => false

/-- Number of zero-length bulk-out transfers the host performs before its
first bulk-in (the status-byte read). -/
def zeroLenOutsBeforeFirstIn (evs : List UsbEvent) : Nat :=
  ((evs.takeWhile (fun e => !(isBulkIn e))).filter isZeroLenOut).length

/-- A successful encode of a nonempty input is nonempty (its first block has
a header byte). -/
theorem cring_rle_encode_ne_nil (x out : List Nat) (hne : x ≠ [])
    (henc : cring_rle_encode x = some out) : out ≠ [] := by
  rcases cring_rle_encode_some_inv x out hne henc with
    ⟨v, out', _, _, hform⟩ | ⟨best, v, r, out', _, _, _, _, _, _, hform⟩ <;>
    subst hform <;> exact List.cons_ne_nil _ _

/-- C7 (counterexample): on the one-byte image `[0]` with an `Ok` status the
host performs exactly one zero-length bulk-out before reading the status
byte, not the two (terminator plus separate "ready" probe) that the claim
asserts — the code has a single zero-length `cring_usb_bulk_out` call. -/
theorem C7_counterexample :
    (cring_acc_send_bmp_events [0] 0).map zeroLenOutsBeforeFirstIn ≠ some 2 ∧
    (cring_acc_send_bmp_events [0] 0).map zeroLenOutsBeforeFirstIn = some 1 := by decide

/-- C7 (amended): in every successful host-side transfer, after transmitting
the encoded image the host performs exactly one zero-length bulk-out
transfer — the end-of-message terminator; there is no second size-zero
"ready" probe — and then reads exactly one status byte (a one-byte bulk-in
on endpoint `0x81`) as its first inbound transfer. -/
theorem C7_single_terminator (bmp : List Nat) (evs : List UsbEvent)
    (h : cring_acc_send_bmp_events bmp 0 = some evs) :
    zeroLenOutsBeforeFirstIn evs = 1 ∧
    (evs.filter isBulkIn).head? = some (UsbEvent.bulkIn 129 1) := by
  unfold cring_acc_send_bmp_events at h
  by_cases hb : bmp.length = 0
  · rw [if_pos hb] at h
    exact absurd h (by simp)
  · rw [if_neg hb] at h
    cases henc : cring_rle_encode bmp with
    | none =>
      rw [henc] at h
      exact absurd h (by simp)
    | some enc =>
      rw [henc] at h
      have h' : some ([UsbEvent.bulkOut 1 enc.length, UsbEvent.bulkOut 1 0,
          UsbEvent.bulkIn 129 1] ++
          (if cring_map_from_device_error 0 = 0 then [UsbEvent.bulkIn 129 enc.length]
           else [])) = some evs := h
      rw [if_pos (show cring_map_from_device_error 0 = 0 from rfl)] at h'
      have hne : bmp ≠ [] := by
        intro h0
        rw [h0] at hb
        simp at hb
      have hlen : enc.length ≠ 0 := by
        have := cring_rle_encode_ne_nil bmp enc hne henc
        simpa [List.length_eq_zero] using this
      have hevs := Option.some.inj h'
      subst hevs
      constructor
      · unfold zeroLenOutsBeforeFirstIn
        simp [isBulkIn, isZeroLenOut, hlen]
      · simp [isBulkIn]

/-! ## Claim C4: the pixel-channel inversion (`listen`, firmware main.rs:228-261) -/

/-- `u32::trailing_zeros`: index of the lowest set bit among bits 0..31, or
32 when no bit below 32 is set. -/
def u32trailingZeros (m : Nat) : Nat :=
  ((List.range 32).findIdx? (fun i => m / 2 ^ i % 2 == 1)).getD 32

/-- `u32::leading_zeros`: number of clear bits above the highest set bit. -/
def u32leadingZeros (m : Nat) : Nat :=
  ((List.range 32).reverse.findIdx? (fun i => m / 2 ^ i % 2 == 1)).getD 32

/-- Channel boundaries derived from a mask (main.rs:229-239):
`start = mask.trailing_zeros()`, `end = 32 - mask.leading_zeros()`. -/
def channelRange (mask : Nat) : Nat × Nat :=
  (u32trailingZeros mask, 32 - u32leadingZeros mask)

/-- `bitvec` slice-and-load, `pixel[start..stop].load_le::<uN>()` on an Lsb0
word of `bpp` bits, the integer type having `maxw` bits.  Panics (`none`)
when the range is reversed, leaves the pixel, is empty, or is wider than the
integer type. -/
def bitsLoadLe (bpp pixel start stop maxw : Nat) : Option Nat :=
  if start ≤ stop ∧ stop ≤ bpp ∧ 1 ≤ stop - start ∧ stop - start ≤ maxw then
    some (pixel / 2 ^ start % 2 ^ (stop - start))
  else none

/-- `bitvec` slice-and-store, `pixel[start..stop].store_le(v)`: the value is
truncated to the slice width, bits outside the range are preserved; same
panic conditions as the load. -/
def bitsStoreLe (bpp pixel start stop maxw v : Nat) : Option Nat :=
  if start ≤ stop ∧ stop ≤ bpp ∧ 1 ≤ stop - start ∧ stop - start ≤ maxw then
    some (pixel % 2 ^ start + v % 2 ^ (stop - start) * 2 ^ start +
      pixel / 2 ^ stop * 2 ^ stop)
  else none

/-- One channel inversion (main.rs:250-257): `let value =
pixel[range].load_le::<u8>(); pixel[range].store_le(u8::MAX - value)`. -/
def invertChannelLe (bpp pixel start stop : Nat) : Option Nat :=
  match bitsLoadLe bpp pixel start stop 8 with
  | none => none
  | some v => bitsStoreLe bpp pixel start stop 8 (255 - v)

/-- The per-pixel body of the transform loop (main.rs:246-261): with channel
masks present, invert the red, green and blue ranges in sequence; without
masks, `pixel.store_le(u32::MAX - pixel.load_le::<u32>())` on the whole
`bits_per_pixel`-bit word. -/
def invertPixelChannels (bpp : Nat) (masks : Option (Nat × Nat × Nat)) (pixel : Nat) :
    Option Nat :=
  match masks with
  | some (r, g, b) =>
    match invertChannelLe bpp pixel (channelRange r).1 (channelRange r).2 with
    | none => none
    | some p1 =>
      match invertChannelLe bpp p1 (channelRange g).1 (channelRange g).2 with
      | none => none
      | some p2 => invertChannelLe bpp p2 (channelRange b).1 (channelRange b).2
  | none =>
    match bitsLoadLe bpp pixel 0 bpp 32 with
    | none => none
    | some v => bitsStoreLe bpp pixel 0 bpp 32 (4294967295 - v)

/-- Truncating `(2^W - 1) - v` to a `w`-bit field (`w ≤ W`) yields exactly
the `w`-bit complement `(2^w - 1) - v`: the excess high bits of the wide
all-ones value vanish modulo `2^w`. -/
theorem allones_truncated_invert (W w v : Nat) (hw1 : 1 ≤ w) (hw : w ≤ W)
    (hv : v < 2 ^ w) :
    (2 ^ W - 1 - v) % 2 ^ w = 2 ^ w - 1 - v := by
  have hWw : (2:Nat) ^ W = 2 ^ w * 2 ^ (W - w) := by
    rw [← pow_add]
    congr 1
    omega
  have hA : 0 < (2:Nat) ^ w := Nat.two_pow_pos w
  have hB : 0 < (2:Nat) ^ (W - w) := Nat.two_pow_pos (W - w)
  have hAle : (2:Nat) ^ w ≤ 2 ^ W := by
    rw [hWw]
    exact Nat.le_mul_of_pos_right _ hB
  have hmul : (2:Nat) ^ w * (2 ^ (W - w) - 1) = 2 ^ W - 2 ^ w := by
    rw [Nat.mul_sub_one, ← hWw]
  have hd : 2 ^ W - 1 - v = (2 ^ w - 1 - v) + 2 ^ w * (2 ^ (W - w) - 1) := by
    rw [hmul]
    omega
  rw [hd, Nat.add_mul_mod_self_left, Nat.mod_eq_of_lt (by omega)]

/-- Replacing the bits of a field: the written value is recovered and the
bits below and above the field are untouched. -/
theorem store_decomp (s w lo m hi : Nat) (hlo : lo < 2 ^ s) (hm : m < 2 ^ w) :
    (lo + m * 2 ^ s + hi * 2 ^ (s + w)) / 2 ^ s % 2 ^ w = m ∧
    (lo + m * 2 ^ s + hi * 2 ^ (s + w)) % 2 ^ s = lo ∧
    (lo + m * 2 ^ s + hi * 2 ^ (s + w)) / 2 ^ (s + w) = hi := by
  have hs : 0 < (2:Nat) ^ s := Nat.two_pow_pos s
  have hsw : 0 < (2:Nat) ^ (s + w) := Nat.two_pow_pos (s + w)
  have hp1 : lo + m * 2 ^ s + hi * 2 ^ (s + w) =
      lo + 2 ^ s * (m + 2 ^ w * hi) := by
    rw [pow_add]
    ring
  have hp2 : lo + m * 2 ^ s + hi * 2 ^ (s + w) =
      (lo + m * 2 ^ s) + 2 ^ (s + w) * hi := by
    ring
  refine ⟨?_, ?_, ?_⟩
  · rw [hp1, Nat.add_mul_div_left _ _ hs, Nat.div_eq_of_lt hlo, Nat.zero_add,
      Nat.add_mul_mod_self_left, Nat.mod_eq_of_lt hm]
  · rw [hp1, Nat.add_mul_mod_self_left, Nat.mod_eq_of_lt hlo]
  · have key : (m + 1) * 2 ^ s ≤ 2 ^ w * 2 ^ s :=
      Nat.mul_le_mul hm (Nat.le_refl (2 ^ s))
    have key2 : (m + 1) * 2 ^ s = m * 2 ^ s + 2 ^ s := by ring
    have hws : (2:Nat) ^ (s + w) = 2 ^ s * 2 ^ w := pow_add 2 s w
    have hcomm : (2:Nat) ^ w * 2 ^ s = 2 ^ s * 2 ^ w := Nat.mul_comm _ _
    have hlt : lo + m * 2 ^ s < 2 ^ (s + w) := by omega
    rw [hp2, Nat.add_mul_div_left _ _ hsw, Nat.div_eq_of_lt hlt, Nat.zero_add]

/-- C4 (amended): without channel masks the whole `bits_per_pixel`-bit pixel
word is replaced by its bitwise complement `(2^bpp - 1) - pixel`; with
channel masks, each channel whose mask-derived range `[start, stop)` is
nonempty, lies inside the pixel and spans at most 8 bits (the width of the
`u8` the code loads into) has its `w`-bit value `v` replaced by
`(2^w - 1) - v` while all bits outside the range are preserved; ranges wider
than 8 bits (or empty or out-of-range ones) make the transform panic instead. -/
theorem C4_channel_inversion :
    (∀ bpp pixel, 1 ≤ bpp → bpp ≤ 32 → pixel < 2 ^ bpp →
      invertPixelChannels bpp none pixel = some (2 ^ bpp - 1 - pixel)) ∧
    (∀ bpp pixel mask s e, channelRange mask = (s, e) → s < e → e ≤ bpp →
      e - s ≤ 8 →
      ∃ p', invertChannelLe bpp pixel s e = some p' ∧
        p' / 2 ^ s % 2 ^ (e - s) = 2 ^ (e - s) - 1 - pixel / 2 ^ s % 2 ^ (e - s) ∧
        p' % 2 ^ s = pixel % 2 ^ s ∧
        p' / 2 ^ e = pixel / 2 ^ e) := by
  constructor
  · intro bpp pixel h1 h32 hpix
    have hguard : 0 ≤ bpp ∧ bpp ≤ bpp ∧ 1 ≤ bpp ∧ bpp ≤ 32 := by omega
    have hinv : (4294967295 - pixel) % 2 ^ bpp = 2 ^ bpp - 1 - pixel := by
      have := allones_truncated_invert 32 bpp pixel h1 h32 hpix
      norm_num at this
      exact this
    simp only [invertPixelChannels, bitsLoadLe, bitsStoreLe, Nat.sub_zero, if_pos hguard,
      pow_zero, Nat.div_one, Nat.mod_one, Nat.mod_eq_of_lt hpix, Nat.div_eq_of_lt hpix]
    rw [hinv]
    norm_num
  · intro bpp pixel mask s e hrange hse hebpp hw8
    have hguard : s ≤ e ∧ e ≤ bpp ∧ 1 ≤ e - s ∧ e - s ≤ 8 := by omega
    set w := e - s with hwdef
    set v := pixel / 2 ^ s % 2 ^ w with hvdef
    have hv : v < 2 ^ w := Nat.mod_lt _ (Nat.two_pow_pos w)
    have hm : (255 - v) % 2 ^ w < 2 ^ w := Nat.mod_lt _ (Nat.two_pow_pos w)
    have hlo : pixel % 2 ^ s < 2 ^ s := Nat.mod_lt _ (Nat.two_pow_pos s)
    have hes : e = s + w := by omega
    have hdec := store_decomp s w (pixel % 2 ^ s) ((255 - v) % 2 ^ w)
      (pixel / 2 ^ e) hlo hm
    rw [← hes] at hdec
    refine ⟨pixel % 2 ^ s + (255 - v) % 2 ^ w * 2 ^ s + pixel / 2 ^ e * 2 ^ e,
      ?_, ?_, ?_, ?_⟩
    · simp only [invertChannelLe, bitsLoadLe, bitsStoreLe, if_pos hguard]
    · rw [hdec.1]
      have h255 : (255:Nat) = 2 ^ 8 - 1 := by norm_num
      rw [h255, allones_truncated_invert 8 w v (by omega) (by omega) hv]
    · exact hdec.2.1
    · exact hdec.2.2

/-- C4 (counterexample): the claim fails as stated for masks spanning more
than 8 bits.  A successfully parsed 32bpp bitfields bitmap may carry a
9-bit red mask `0x1FF`; the claim demands the red value 0 become
`2^9 - 1 = 511`, but `pixel[0..9].load_le::<u8>()` panics in `bitvec`
(slice wider than the `u8` target), so the transform dies instead of
inverting. -/
theorem C4_counterexample :
    invertPixelChannels 32 (some (511, 65280, 255)) 0 = none := by decide

/-- C4 (witness): the whole-pixel complement at 8 bpp sends 5 to 250, and
the 8-bit channel `[8, 16)` of the mask `0xFF00` on pixel 0 becomes 255 with
all other bits preserved. -/
theorem C4_witness :
    invertPixelChannels 8 none 5 = some 250 ∧
    (∃ p', invertChannelLe 16 0 8 16 = some p' ∧
      p' / 2 ^ 8 % 2 ^ 8 = 2 ^ 8 - 1 - 0 / 2 ^ 8 % 2 ^ 8 ∧
      p' % 2 ^ 8 = 0 % 2 ^ 8 ∧
      p' / 2 ^ 16 = 0 / 2 ^ 16) := by
  constructor
  · exact C4_channel_inversion.1 8 5 (by decide) (by decide) (by decide)
  · exact C4_channel_inversion.2 16 0 65280 8 16 (by decide) (by decide)
      (by decide) (by decide)

/-- C7 (witness): the amended transfer-sequence property at the concrete
one-byte image `[0]`, whose encoding is the two bytes `[0x00, 0x00]`. -/
theorem C7_witness :
    zeroLenOutsBeforeFirstIn [UsbEvent.bulkOut 1 2, UsbEvent.bulkOut 1 0,
      UsbEvent.bulkIn 129 1, UsbEvent.bulkIn 129 2] = 1 ∧
    ([UsbEvent.bulkOut 1 2, UsbEvent.bulkOut 1 0, UsbEvent.bulkIn 129 1,
      UsbEvent.bulkIn 129 2].filter isBulkIn).head? = some (UsbEvent.bulkIn 129 1) :=
  C7_single_terminator [0] _ (by decide)
